import Mathlib

/-!
Verification development for the jalapi endpoint-discovery pipeline.

This file gives a shallow embedding, in Lean 4, of the core data model and
algorithms of the repository:

* `AuthInfo` / `Endpoint`          — src/jalapi/models/models.py
* `EndpointProcessor.normalize_path`, `EndpointProcessor.is_endpoint`
                                   — src/jalapi/core/endpoint_processor.py
* `JavaScriptAnalysisAgent._deduplicate_endpoints`, `_generate_stats`,
  `_endpoint_to_dict`              — src/jalapi/core/analysis_agent.py
* `simple_chunk_code`              — src/jalapi/utils/chunk.py
* `RegexAnalyzer.discover_endpoints`, `_get_context`, `_detect_auth`
                                   — src/jalapi/core/regex_analyzer.py
* `LLMAnalyzer.analyze_endpoints`  — src/jalapi/core/llm_analyzer.py

Python strings are modelled as Lean `String` / `List Char`; Python floats
(used only for confidence scores, compared with `max` / `<`) are modelled
as `ℚ`; Python `dict` (insertion ordered) is modelled as an association
list with in-place update.  The small regular expressions hard-coded in the
source are transcribed token by token into an explicit backtracking
matcher (`STok` / `Tok` below) whose priority order mimics Python's `re`
(leftmost match, greedy quantifiers, ordered alternation).
-/

namespace Jalapi

/-- Models `AuthInfo` of src/jalapi/models/models.py. -/
structure AuthInfo where
  required : Bool := false
  type : Option String := none
  location : Option String := none
deriving DecidableEq, Repr

/-- Models `Endpoint` of src/jalapi/models/models.py.  The Python field
`auth` is `Optional[AuthInfo]`, but `__post_init__` immediately replaces
`None` by `AuthInfo()`, so it is modelled as a plain field whose default is
the default `AuthInfo`. -/
structure Endpoint where
  path : String
  method : String := "UNKNOWN"
  auth : AuthInfo := {}
  confidence : ℚ := 1
  detector : String := "regex"
  context : Option String := none
  line_number : Option Nat := none
deriving DecidableEq, Repr

/-! ### Character-list utilities used to model Python string operations -/

/-- Lexicographic strict order on character lists, by code point — the
order Python's `sorted` uses on `str`. -/
def charListLt : List Char → List Char → Bool
  | [], [] => false
  | [], _ :: _ => true
  | _ :: _, [] => false
  | a :: as, b :: bs => if a < b then true else if b < a then false else charListLt as bs

/-- `a < b` on strings, by code point, as Python compares `str`. -/
def strLt (a b : String) : Bool := charListLt a.data b.data

/-- Split a character list at every occurrence of the character `sep`,
keeping empty pieces — Python `str.split(sep)` for a one-character
separator. -/
def splitOnChar (sep : Char) : List Char → List (List Char)
  | [] => [[]]
  | c :: rest =>
    let r := splitOnChar sep rest
    if c = sep then [] :: r
    else match r with
      | [] => [[c]]
      | p :: ps => (c :: p) :: ps

/-- Python `detector.split("+")` on a detector string. -/
def splitPlus (s : String) : List String :=
  (splitOnChar '+' s.data).map List.asString

/-- Python `"+".join(ss)`. -/
def joinPlus (ss : List String) : String :=
  (List.intercalate ['+'] (ss.map String.data)).asString

/-- The characters Python's `str.strip()` (and the `\s` class of its `re`
module, over ASCII) treats as whitespace. -/
def pySpace (c : Char) : Bool :=
  c = ' ' || c = '\t' || c = '\n' || c = '\r' || c = '\x0b' || c = '\x0c'

/-- Python `s.strip()` with no argument: drop leading and trailing
whitespace. -/
def pyStripWs (s : String) : String :=
  (((s.data.dropWhile pySpace).reverse.dropWhile pySpace).reverse).asString

/-- Remove duplicates keeping first occurrences: the underlying element
set of Python's `set(...)`, listed in a canonical way. -/
def dedupStr : List String → List String
  | [] => []
  | s :: rest => if s ∈ rest then s :: (dedupStr rest).filter (· ≠ s) else s :: dedupStr rest

/-- Insert into an already charListLt-sorted list of strings. -/
def insertStr (s : String) : List String → List String
  | [] => [s]
  | t :: rest => if strLt s t || s = t then s :: t :: rest else t :: insertStr s rest

/-- Ascending sort on strings — Python's `sorted` (on the distinct
elements of a set, so stability is irrelevant). -/
def sortStrings (l : List String) : List String := l.foldr insertStr []

/-! ### Fuser: `JavaScriptAnalysisAgent._deduplicate_endpoints` -/

/-- The deduplication key `(endpoint.path, endpoint.method)`
(src/jalapi/core/analysis_agent.py line 100). -/
def epKey (e : Endpoint) : String × String := (e.path, e.method)

/-- Lookup in the insertion-ordered map modelling the Python dict
`unique_endpoints`. -/
def lookupKey (k : String × String) : List ((String × String) × Endpoint) → Option Endpoint
  | [] => none
  | (k', v) :: rest => if k' = k then some v else lookupKey k rest

/-- Python dict assignment `unique_endpoints[key] = v`: replace in place if
the key is present, else append (insertion order preserved). -/
def dictSet (k : String × String) (v : Endpoint) :
    List ((String × String) × Endpoint) → List ((String × String) × Endpoint)
  | [] => [(k, v)]
  | (k', v') :: rest => if k' = k then (k, v) :: rest else (k', v') :: dictSet k v rest

/-- One iteration of the loop of `_deduplicate_endpoints`
(src/jalapi/core/analysis_agent.py lines 99-144). -/
def mergeStep (m : List ((String × String) × Endpoint)) (endpoint : Endpoint) :
    List ((String × String) × Endpoint) :=
  let key := epKey endpoint
  match lookupKey key m with
  | none => dictSet key endpoint m
  | some existing =>
    let existing_detectors := splitPlus existing.detector
    let current_detector := endpoint.detector
    if current_detector ∉ existing_detectors then
      let combined_detector := joinPlus (sortStrings (dedupStr (current_detector :: existing_detectors)))
      let highest_confidence := max existing.confidence endpoint.confidence
      let final_method :=
        if existing.method = "UNKNOWN" ∧ endpoint.method ≠ "UNKNOWN" then endpoint.method
        else existing.method
      let combined_endpoint : Endpoint :=
        { path := endpoint.path
          method := final_method
          auth := if endpoint.auth.required then endpoint.auth else existing.auth
          confidence := highest_confidence
          detector := combined_detector
          context := some (pyStripWs ((existing.context.getD "") ++ "\n" ++ (endpoint.context.getD "")))
          line_number := none }
      dictSet key combined_endpoint m
    else
      if endpoint.confidence > existing.confidence then dictSet key endpoint m else m

/-- `JavaScriptAnalysisAgent._deduplicate_endpoints`
(src/jalapi/core/analysis_agent.py lines 92-146): fold the candidates in
input order into the insertion-ordered map, then return its values. -/
def deduplicate_endpoints (endpoints : List Endpoint) : List Endpoint :=
  (endpoints.foldl mergeStep []).map Prod.snd

/-! ### StatsAggregator: `JavaScriptAnalysisAgent._generate_stats` -/

/-- The summary record returned by `_generate_stats`. -/
structure Stats where
  total_endpoints : Nat
  regex_findings : Nat
  llm_findings : Nat
  combined_findings : Nat
  endpoints_with_auth : Nat
deriving DecidableEq, Repr

/-- Python `"+" in ep.detector` (one-character substring test). -/
def containsPlus (s : String) : Bool := '+' ∈ s.data

/-- Loop body of `_generate_stats` over one endpoint, updating the four
detector counters and the auth counter. -/
def statsStep (acc : Nat × Nat × Nat × Nat) (ep : Endpoint) : Nat × Nat × Nat × Nat :=
  let (r, l, c, a) := acc
  let (r, l, c) :=
    if containsPlus ep.detector then (r + 1, l + 1, c + 1)
    else if ep.detector = "regex" then (r + 1, l, c)
    else if ep.detector = "llm" then (r, l + 1, c)
    else (r, l, c)
  (r, l, c, if ep.auth.required then a + 1 else a)

/-- `JavaScriptAnalysisAgent._generate_stats`
(src/jalapi/core/analysis_agent.py lines 148-190). -/
def generate_stats (endpoints : List Endpoint) : Stats :=
  let (r, l, c, a) := endpoints.foldl statsStep (0, 0, 0, 0)
  { total_endpoints := endpoints.length
    regex_findings := r
    llm_findings := l
    combined_findings := c
    endpoints_with_auth := a }

/-! ### Serialization: `JavaScriptAnalysisAgent._endpoint_to_dict` -/

/-- The serialized endpoint record: optional fields are present in the
Python dict exactly when the corresponding `Option` is `some`. -/
structure EndpointDict where
  path : String
  method : String
  detector : String
  confidence : ℚ
  line_number : Option Nat
  usage_context : Option String
  auth : Option (Bool × Option String × Option String)
deriving DecidableEq, Repr

/-- `JavaScriptAnalysisAgent._endpoint_to_dict`
(src/jalapi/core/analysis_agent.py lines 192-224).  `line_number` is kept
when not `None`; `usage_context` when `endpoint.context` is truthy
(non-`None` and non-empty); `auth` when `auth.required`. -/
def endpoint_to_dict (endpoint : Endpoint) : EndpointDict :=
  { path := endpoint.path
    method := endpoint.method
    detector := endpoint.detector
    confidence := endpoint.confidence
    line_number := endpoint.line_number
    usage_context :=
      match endpoint.context with
      | some c => if c ≠ "" then some c else none
      | none => none
    auth :=
      if endpoint.auth.required then
        some (endpoint.auth.required, endpoint.auth.type, endpoint.auth.location)
      else none }

/-! ### PathNormalizer: `EndpointProcessor.normalize_path` -/

/-- Left brace / right brace / backtick as characters (written via their
code points). -/
def lbrace : Char := Char.ofNat 123

def rbrace : Char := Char.ofNat 125

def backquote : Char := Char.ofNat 96

/-- The quote characters stripped by Python `url.strip("`'\"")`. -/
def isQuoteChar (c : Char) : Bool := c = backquote || c = '\'' || c = '"'

/-- Fuel-indexed worker for `sub1`; the fuel only serves structural
termination and `sub1` supplies enough of it (one unit per character
consumed, and every step consumes at least one). -/
def sub1Go : Nat → List Char → List Char
  | 0, l => l
  | _ + 1, [] => []
  | fuel + 1, c :: rest =>
    if c = '$' ∧ rest.head? = some lbrace then
      let grp := rest.tail.takeWhile (· ≠ rbrace)
      let rest2 := rest.tail.dropWhile (· ≠ rbrace)
      if grp ≠ [] ∧ rest2 ≠ [] then
        lbrace :: grp ++ rbrace :: sub1Go fuel rest2.tail
      else
        c :: sub1Go fuel rest
    else
      c :: sub1Go fuel rest

/-- `re.sub(r"\$\x7b([^\x7d]+)\x7d", r"\x7b\1\x7d", url)` — one
left-to-right, non-overlapping pass replacing `$\x7bEXPR\x7d` by
`\x7bEXPR\x7d`, where `EXPR` is a nonempty run without a right brace
(the greedy `[^\x7d]+` of the Python pattern necessarily stops at the
first right brace). -/
def sub1 (l : List Char) : List Char := sub1Go l.length l

/-- Python `url.strip("`'\"")`: drop leading and trailing quote
characters. -/
def stripQuotes (l : List Char) : List Char :=
  ((l.dropWhile isQuoteChar).reverse.dropWhile isQuoteChar).reverse

/-- `re.sub(r"/+", "/", url)`: collapse each run of slashes to one (a
doubled slash drops its first copy until no two adjacent slashes
remain). -/
def collapseSlashes : List Char → List Char
  | [] => []
  | [c] => [c]
  | a :: b :: rest =>
    if a = '/' ∧ b = '/' then collapseSlashes (b :: rest)
    else a :: collapseSlashes (b :: rest)

/-- `EndpointProcessor.normalize_path`
(src/jalapi/core/endpoint_processor.py lines 16-35). -/
def normalize_path (url : List Char) : List Char :=
  collapseSlashes (stripQuotes (sub1 url))

/-! ### Association-list (Python dict) lemmas -/

theorem lookupKey_eq_some_mem {k : String × String} {m : List ((String × String) × Endpoint)}
    {v : Endpoint} (h : lookupKey k m = some v) : (k, v) ∈ m := by
  induction m with
  | nil => simp [lookupKey] at h
  | cons kv rest ih =>
    obtain ⟨k', v'⟩ := kv
    by_cases hk : k' = k
    · subst hk
      simp [lookupKey] at h
      simp [h]
    · simp [lookupKey, hk] at h
      exact List.mem_cons_of_mem _ (ih h)

theorem mem_dictSet_elim {kv : (String × String) × Endpoint} {k : String × String}
    {v : Endpoint} {m : List ((String × String) × Endpoint)}
    (h : kv ∈ dictSet k v m) : kv = (k, v) ∨ kv ∈ m := by
  induction m with
  | nil => simpa [dictSet] using h
  | cons kv' rest ih =>
    obtain ⟨k', v'⟩ := kv'
    by_cases hk : k' = k
    · subst hk
      simp [dictSet] at h
      rcases h with h | h
      · exact Or.inl h
      · exact Or.inr (List.mem_cons_of_mem _ h)
    · simp [dictSet, hk] at h
      rcases h with h | h
      · exact Or.inr (by simp [h])
      · rcases ih h with h' | h'
        · exact Or.inl h'
        · exact Or.inr (List.mem_cons_of_mem _ h')

theorem lookupKey_dictSet_self (k : String × String) (v : Endpoint)
    (m : List ((String × String) × Endpoint)) :
    lookupKey k (dictSet k v m) = some v := by
  induction m with
  | nil => simp [dictSet, lookupKey]
  | cons kv' rest ih =>
    obtain ⟨k', v'⟩ := kv'
    by_cases hk : k' = k
    · subst hk; simp [dictSet, lookupKey]
    · simp [dictSet, lookupKey, hk, ih]

theorem lookupKey_dictSet_ne {k' k : String × String} (hne : k' ≠ k) (v : Endpoint)
    (m : List ((String × String) × Endpoint)) :
    lookupKey k' (dictSet k v m) = lookupKey k' m := by
  induction m with
  | nil =>
    have : ¬k = k' := fun h => hne h.symm
    simp [dictSet, lookupKey, this]
  | cons kv0 rest ih =>
    obtain ⟨k0, v0⟩ := kv0
    have hkk : ¬k = k' := fun h => hne h.symm
    by_cases hk : k0 = k
    · simp [dictSet, lookupKey, hk, hkk]
    · simp [dictSet, lookupKey, hk, ih]

/-! ### Invariants of the fuser's survivor map -/

/-- Every survivor is stored under its own `(path, method)` key. -/
theorem keyInv_mergeStep {m : List ((String × String) × Endpoint)} {e : Endpoint}
    (hm : ∀ kv ∈ m, epKey kv.2 = kv.1) :
    ∀ kv ∈ mergeStep m e, epKey kv.2 = kv.1 := by
  intro kv hkv
  cases hlk : lookupKey (epKey e) m with
  | none =>
    simp only [mergeStep, hlk] at hkv
    rcases mem_dictSet_elim hkv with h | h
    · simp [h]
    · exact hm _ h
  | some existing =>
    simp only [mergeStep, hlk] at hkv
    have hex : epKey existing = epKey e := hm _ (lookupKey_eq_some_mem hlk)
    by_cases hnd : e.detector ∉ splitPlus existing.detector
    · rw [if_pos hnd] at hkv
      rcases mem_dictSet_elim hkv with h | h
      · have hme : existing.method = e.method := congrArg Prod.snd hex
        have hfm : (if existing.method = "UNKNOWN" ∧ e.method ≠ "UNKNOWN" then e.method
            else existing.method) = e.method := by
          by_cases hu : existing.method = "UNKNOWN" ∧ e.method ≠ "UNKNOWN"
          · rw [if_pos hu]
          · rw [if_neg hu]; exact hme
        subst h
        simp [epKey, hfm]
      · exact hm _ h
    · rw [if_neg hnd] at hkv
      by_cases hc : e.confidence > existing.confidence
      · rw [if_pos hc] at hkv
        rcases mem_dictSet_elim hkv with h | h
        · simp [h]
        · exact hm _ h
      · rw [if_neg hc] at hkv
        exact hm _ hkv

/-- Confidence of the survivor stored at any key never decreases across a
merge step. -/
theorem lookup_mergeStep_mono {m : List ((String × String) × Endpoint)} {e' : Endpoint}
    {k : String × String} {v : Endpoint} (hk : lookupKey k m = some v) :
    ∃ v', lookupKey k (mergeStep m e') = some v' ∧ v.confidence ≤ v'.confidence := by
  cases hlk : lookupKey (epKey e') m with
  | none =>
    simp only [mergeStep, hlk]
    by_cases hke : k = epKey e'
    · rw [hke] at hk; rw [hk] at hlk; exact absurd hlk (by simp)
    · exact ⟨v, by rw [lookupKey_dictSet_ne hke]; exact hk, le_refl _⟩
  | some existing =>
    simp only [mergeStep, hlk]
    by_cases hke : k = epKey e'
    · have hv : v = existing := by
        rw [hke] at hk; rw [hk] at hlk; exact (Option.some.injEq _ _ ▸ hlk)
      subst hv
      by_cases hnd : e'.detector ∉ splitPlus v.detector
      · rw [if_pos hnd]
        refine ⟨_, by rw [hke]; exact lookupKey_dictSet_self _ _ _, ?_⟩
        exact le_max_left _ _
      · rw [if_neg hnd]
        by_cases hc : e'.confidence > v.confidence
        · rw [if_pos hc]
          refine ⟨e', by rw [hke]; exact lookupKey_dictSet_self _ _ _, le_of_lt hc⟩
        · rw [if_neg hc]
          exact ⟨v, hk, le_refl _⟩
    · by_cases hnd : e'.detector ∉ splitPlus existing.detector
      · rw [if_pos hnd]
        exact ⟨v, by rw [lookupKey_dictSet_ne hke]; exact hk, le_refl _⟩
      · rw [if_neg hnd]
        by_cases hc : e'.confidence > existing.confidence
        · rw [if_pos hc]
          exact ⟨v, by rw [lookupKey_dictSet_ne hke]; exact hk, le_refl _⟩
        · rw [if_neg hc]
          exact ⟨v, hk, le_refl _⟩

/-- After merging candidate `e`, the survivor at `e`'s key has confidence
at least `e.confidence`. -/
theorem lookup_mergeStep_self (m : List ((String × String) × Endpoint)) (e : Endpoint) :
    ∃ v', lookupKey (epKey e) (mergeStep m e) = some v' ∧ e.confidence ≤ v'.confidence := by
  cases hlk : lookupKey (epKey e) m with
  | none =>
    simp only [mergeStep, hlk]
    exact ⟨e, lookupKey_dictSet_self _ _ _, le_refl _⟩
  | some existing =>
    simp only [mergeStep, hlk]
    by_cases hnd : e.detector ∉ splitPlus existing.detector
    · rw [if_pos hnd]
      exact ⟨_, lookupKey_dictSet_self _ _ _, le_max_right _ _⟩
    · rw [if_neg hnd]
      by_cases hc : e.confidence > existing.confidence
      · rw [if_pos hc]
        exact ⟨e, lookupKey_dictSet_self _ _ _, le_refl _⟩
      · rw [if_neg hc]
        exact ⟨existing, hlk, le_of_not_lt hc⟩

/-- Fold version of the two monotonicity lemmas. -/
theorem lookup_foldl_conf (cands : List Endpoint) (e : Endpoint) :
    ∀ m : List ((String × String) × Endpoint),
      (e ∈ cands ∨ ∃ v, lookupKey (epKey e) m = some v ∧ e.confidence ≤ v.confidence) →
      ∃ v, lookupKey (epKey e) (cands.foldl mergeStep m) = some v ∧
        e.confidence ≤ v.confidence := by
  induction cands with
  | nil =>
    intro m h
    rcases h with h | h
    · exact absurd h (List.not_mem_nil e)
    · exact h
  | cons c cs ih =>
    intro m h
    rcases h with h | ⟨v, hv, hc⟩
    · rcases List.mem_cons.mp h with h | h
      · subst h
        refine ih (mergeStep m e) (Or.inr ?_)
        exact lookup_mergeStep_self m e
      · exact ih (mergeStep m c) (Or.inl h)
    · rcases @lookup_mergeStep_mono _ c _ _ hv with ⟨v', hv', hc'⟩
      exact ih (mergeStep m c) (Or.inr ⟨v', hv', le_trans hc hc'⟩)

/-- Key invariant carried through the whole fold. -/
theorem keyInv_foldl (cands : List Endpoint) :
    ∀ m : List ((String × String) × Endpoint),
      (∀ kv ∈ m, epKey kv.2 = kv.1) →
      ∀ kv ∈ cands.foldl mergeStep m, epKey kv.2 = kv.1 := by
  induction cands with
  | nil => intro m hm; exact hm
  | cons c cs ih =>
    intro m hm
    exact ih (mergeStep m c) (keyInv_mergeStep hm)

/-- C4.  For every candidate list and every key `(path, method)`, the
confidence of the fused survivor for that key is greater than or equal to
the maximum confidence over all input candidates sharing that key: each
input candidate `e` is dominated by a survivor with `e`'s own path and
method, so the survivor's confidence is ≥ the max over the key's
candidates. -/
theorem dedup_confidence_ge_max (cands : List Endpoint) (e : Endpoint) (he : e ∈ cands) :
    ∃ s ∈ deduplicate_endpoints cands,
      s.path = e.path ∧ s.method = e.method ∧ e.confidence ≤ s.confidence := by
  obtain ⟨v, hv, hconf⟩ := lookup_foldl_conf cands e [] (Or.inl he)
  have hmem : (epKey e, v) ∈ cands.foldl mergeStep [] := lookupKey_eq_some_mem hv
  have hkey : epKey v = epKey e := keyInv_foldl cands [] (by simp) _ hmem
  refine ⟨v, ?_, ?_, ?_, hconf⟩
  · exact List.mem_map_of_mem Prod.snd hmem
  · exact congrArg Prod.fst hkey
  · exact congrArg Prod.snd hkey

/-- Witness for C4 at a concrete input: two same-key candidates with
confidences 2 and 7; the survivor keeps confidence ≥ 7 (and ≥ 2). -/
theorem dedup_confidence_ge_max_witness :
    ({ path := "/api/a", method := "GET", confidence := 7, detector := "llm" } : Endpoint) ∈
      [({ path := "/api/a", method := "GET", confidence := 2, detector := "regex" } : Endpoint),
       { path := "/api/a", method := "GET", confidence := 7, detector := "llm" }] ∧
    ∃ s ∈ deduplicate_endpoints
        [({ path := "/api/a", method := "GET", confidence := 2, detector := "regex" } : Endpoint),
         { path := "/api/a", method := "GET", confidence := 7, detector := "llm" }],
      s.path = "/api/a" ∧ s.method = "GET" ∧ (7 : ℚ) ≤ s.confidence :=
  ⟨by decide,
   dedup_confidence_ge_max
     [{ path := "/api/a", method := "GET", confidence := 2, detector := "regex" },
      { path := "/api/a", method := "GET", confidence := 7, detector := "llm" }]
     { path := "/api/a", method := "GET", confidence := 7, detector := "llm" }
     (by decide)⟩

/-! ### C8: stats counting -/

/-- Predicate: the endpoint counts toward `regex_findings`. -/
def countsRegex (e : Endpoint) : Bool := containsPlus e.detector || e.detector = "regex"

/-- Predicate: the endpoint counts toward `llm_findings`. -/
def countsLlm (e : Endpoint) : Bool := containsPlus e.detector || e.detector = "llm"

theorem containsPlus_regex : containsPlus "regex" = false := by decide

theorem containsPlus_llm : containsPlus "llm" = false := by decide

theorem containsPlus_llmregex : containsPlus "llm+regex" = true := by decide

/-- Closed form of the stats fold. -/
theorem statsStep_foldl (eps : List Endpoint) :
    ∀ r l c a : Nat,
      eps.foldl statsStep (r, l, c, a) =
        (r + eps.countP countsRegex, l + eps.countP countsLlm,
         c + eps.countP (fun e => containsPlus e.detector),
         a + eps.countP (fun e => e.auth.required)) := by
  induction eps with
  | nil => intro r l c a; simp
  | cons x xs ih =>
    intro r l c a
    simp only [List.foldl_cons, List.countP_cons]
    by_cases hp : containsPlus x.detector
    · simp only [statsStep, hp, if_true, ih]
      by_cases ha : x.auth.required <;>
        simp [countsRegex, countsLlm, hp, ha, Nat.add_assoc, Nat.add_comm 1]
    · by_cases hr : x.detector = "regex"
      · simp only [statsStep, hp, if_false, hr, ih]
        by_cases ha : x.auth.required <;>
          simp [countsRegex, countsLlm, hp, hr, ha, containsPlus_regex,
            Nat.add_assoc, Nat.add_comm 1]
      · by_cases hl : x.detector = "llm"
        · simp only [statsStep, hp, if_false, hr, hl, ih]
          by_cases ha : x.auth.required <;>
            simp [countsRegex, countsLlm, hp, hr, hl, ha, containsPlus_llm,
              Nat.add_assoc, Nat.add_comm 1]
        · simp only [statsStep, hp, if_false, hr, hl, ih]
          by_cases ha : x.auth.required <;>
            simp [countsRegex, countsLlm, hp, hr, hl, ha, Nat.add_assoc, Nat.add_comm 1]

/-- C8.  The stats aggregator counts every endpoint whose detector string
contains `"+"` toward `combined_findings` and toward BOTH `regex_findings`
and `llm_findings`; detector exactly `"regex"` counts toward
`regex_findings` only and exactly `"llm"` toward `llm_findings` only.  In
particular one `"regex"`, one `"llm"` and one `"llm+regex"` endpoint give
`regex_findings = 2`, `llm_findings = 2`, `combined_findings = 1`. -/
theorem generate_stats_spec :
    (∀ eps : List Endpoint,
      generate_stats eps =
        { total_endpoints := eps.length
          regex_findings := eps.countP countsRegex
          llm_findings := eps.countP countsLlm
          combined_findings := eps.countP (fun e => containsPlus e.detector)
          endpoints_with_auth := eps.countP (fun e => e.auth.required) }) ∧
    generate_stats
        [({ path := "/a", detector := "regex" } : Endpoint),
         { path := "/b", detector := "llm" },
         { path := "/c", detector := "llm+regex" }] =
      { total_endpoints := 3, regex_findings := 2, llm_findings := 2,
        combined_findings := 1, endpoints_with_auth := 0 } := by
  constructor
  · intro eps
    have h := statsStep_foldl eps 0 0 0 0
    simp only [generate_stats, h]
    simp
  · rfl

/-! ### C9: merged survivors carry no line number -/

/-- One merge step preserves "a survivor with a combined detector has no
line number", provided the incoming candidate itself has a plain
(`"+"`-free) detector. -/
theorem lineInv_mergeStep {m : List ((String × String) × Endpoint)} {e : Endpoint}
    (hm : ∀ kv ∈ m, containsPlus kv.2.detector = true → kv.2.line_number = none)
    (he : containsPlus e.detector = false) :
    ∀ kv ∈ mergeStep m e, containsPlus kv.2.detector = true → kv.2.line_number = none := by
  intro kv hkv
  cases hlk : lookupKey (epKey e) m with
  | none =>
    simp only [mergeStep, hlk] at hkv
    rcases mem_dictSet_elim hkv with h | h
    · subst h; intro hplus; rw [he] at hplus; exact absurd hplus (by simp)
    · exact hm _ h
  | some existing =>
    simp only [mergeStep, hlk] at hkv
    by_cases hnd : e.detector ∉ splitPlus existing.detector
    · rw [if_pos hnd] at hkv
      rcases mem_dictSet_elim hkv with h | h
      · subst h; intro _; rfl
      · exact hm _ h
    · rw [if_neg hnd] at hkv
      by_cases hc : e.confidence > existing.confidence
      · rw [if_pos hc] at hkv
        rcases mem_dictSet_elim hkv with h | h
        · subst h; intro hplus; rw [he] at hplus; exact absurd hplus (by simp)
        · exact hm _ h
      · rw [if_neg hc] at hkv
        exact hm _ hkv

/-- C9.  When fusion merges two same-key candidates with different
detector names, the replacement survivor is constructed without a line
number, even when both inputs carried one; consequently, for inputs whose
detectors are plain single names, every combined-detector endpoint in the
fused output has `line_number = None` and its serialized dict omits the
`line_number` key (modelled as the `Option` being `none`). -/
theorem dedup_combined_drops_line_number :
    (∀ cands : List Endpoint, (∀ e ∈ cands, containsPlus e.detector = false) →
      ∀ s ∈ deduplicate_endpoints cands, containsPlus s.detector = true →
        s.line_number = none ∧ (endpoint_to_dict s).line_number = none) ∧
    (∀ e1 e2 : Endpoint, epKey e1 = epKey e2 → e2.detector ∉ splitPlus e1.detector →
      (deduplicate_endpoints [e1, e2]).map Endpoint.line_number = [none]) := by
  constructor
  · intro cands hc s hs hplus
    have hinv : ∀ kv ∈ cands.foldl mergeStep ([] : List ((String × String) × Endpoint)),
        containsPlus kv.2.detector = true → kv.2.line_number = none := by
      have : ∀ (l : List Endpoint) (m : List ((String × String) × Endpoint)),
          (∀ e ∈ l, containsPlus e.detector = false) →
          (∀ kv ∈ m, containsPlus kv.2.detector = true → kv.2.line_number = none) →
          ∀ kv ∈ l.foldl mergeStep m, containsPlus kv.2.detector = true →
            kv.2.line_number = none := by
        intro l
        induction l with
        | nil => intro m _ hm; exact hm
        | cons c cs ih =>
          intro m hl hm
          exact ih (mergeStep m c) (fun e he' => hl e (List.mem_cons_of_mem _ he'))
            (lineInv_mergeStep hm (hl c (List.mem_cons_self _ _)))
      exact this cands [] hc (by simp)
    obtain ⟨kv, hkv, hsnd⟩ := List.mem_map.mp hs
    have hline : s.line_number = none := by
      rw [← hsnd]
      exact hinv kv hkv (hsnd ▸ hplus)
    exact ⟨hline, by simp [endpoint_to_dict, hline]⟩
  · intro e1 e2 hk hd
    have h1 : mergeStep [] e1 = [(epKey e1, e1)] := by
      simp [mergeStep, lookupKey, dictSet]
    have h2 : lookupKey (epKey e2) [(epKey e1, e1)] = some e1 := by
      simp [lookupKey, hk]
    simp only [deduplicate_endpoints, List.foldl_cons, List.foldl_nil, h1]
    simp only [mergeStep, h2]
    rw [if_pos hd]
    simp only [dictSet]
    rw [if_pos hk]
    rfl

/-- Witness for C9 at concrete inputs: a regex candidate on line 3 and an
llm candidate on line 9 with the same key merge into a survivor without a
line number. -/
theorem dedup_combined_drops_line_number_witness :
    ((epKey ({ path := "/api/a", method := "GET", detector := "regex", line_number := some 3 } : Endpoint)) =
      epKey ({ path := "/api/a", method := "GET", detector := "llm", line_number := some 9 } : Endpoint)) ∧
    (deduplicate_endpoints
      [({ path := "/api/a", method := "GET", detector := "regex", line_number := some 3 } : Endpoint),
       { path := "/api/a", method := "GET", detector := "llm", line_number := some 9 }]).map
        Endpoint.line_number = [none] :=
  ⟨by decide,
   dedup_combined_drops_line_number.2
     { path := "/api/a", method := "GET", detector := "regex", line_number := some 3 }
     { path := "/api/a", method := "GET", detector := "llm", line_number := some 9 }
     (by decide) (by decide)⟩

/-! ### C3 / C1: detector combination strings -/

/-- Detector strings reachable for survivors when all inputs carry the
plain names `"regex"` or `"llm"`. -/
def detOK (d : String) : Prop := d = "regex" ∨ d = "llm" ∨ d = "llm+regex"

instance : DecidablePred detOK := fun d => by unfold detOK; infer_instance

/-- One merge step keeps every survivor's detector within
`{"regex", "llm", "llm+regex"}` when the incoming candidate's detector is
`"regex"` or `"llm"`. -/
theorem detInv_mergeStep {m : List ((String × String) × Endpoint)} {e : Endpoint}
    (hm : ∀ kv ∈ m, detOK kv.2.detector)
    (he : e.detector = "regex" ∨ e.detector = "llm") :
    ∀ kv ∈ mergeStep m e, detOK kv.2.detector := by
  have heOK : detOK e.detector := by rcases he with he | he <;> simp [detOK, he]
  intro kv hkv
  cases hlk : lookupKey (epKey e) m with
  | none =>
    simp only [mergeStep, hlk] at hkv
    rcases mem_dictSet_elim hkv with h | h
    · subst h; exact heOK
    · exact hm _ h
  | some existing =>
    simp only [mergeStep, hlk] at hkv
    have hex : detOK existing.detector := hm _ (lookupKey_eq_some_mem hlk)
    by_cases hnd : e.detector ∉ splitPlus existing.detector
    · rw [if_pos hnd] at hkv
      rcases mem_dictSet_elim hkv with h | h
      · subst h
        show detOK (joinPlus (sortStrings (dedupStr (e.detector :: splitPlus existing.detector))))
        rcases he with he | he <;> rcases hex with hex | hex | hex <;> rw [he, hex] <;> decide
      · exact hm _ h
    · rw [if_neg hnd] at hkv
      by_cases hc : e.confidence > existing.confidence
      · rw [if_pos hc] at hkv
        rcases mem_dictSet_elim hkv with h | h
        · subst h; exact heOK
        · exact hm _ h
      · rw [if_neg hc] at hkv
        exact hm _ hkv

/-- The full fused map of a two-candidate list whose second candidate
brings a genuinely new detector name: exactly the merge-branch survivor
of `_deduplicate_endpoints` (lines 129-138). -/
theorem dedup_pair_merge (e1 e2 : Endpoint) (hk : epKey e1 = epKey e2)
    (hd : e2.detector ∉ splitPlus e1.detector) :
    deduplicate_endpoints [e1, e2] =
      [{ path := e2.path
         method :=
           if e1.method = "UNKNOWN" ∧ e2.method ≠ "UNKNOWN" then e2.method else e1.method
         auth := if e2.auth.required then e2.auth else e1.auth
         confidence := max e1.confidence e2.confidence
         detector := joinPlus (sortStrings (dedupStr (e2.detector :: splitPlus e1.detector)))
         context := some (pyStripWs ((e1.context.getD "") ++ "\n" ++ (e2.context.getD "")))
         line_number := none }] := by
  have h1 : mergeStep [] e1 = [(epKey e1, e1)] := by
    simp [mergeStep, lookupKey, dictSet]
  have h2 : lookupKey (epKey e2) [(epKey e1, e1)] = some e1 := by
    simp [lookupKey, hk]
  simp only [deduplicate_endpoints, List.foldl_cons, List.foldl_nil, h1]
  simp only [mergeStep, h2]
  rw [if_pos hd]
  simp only [dictSet]
  rw [if_pos hk]
  rfl

/-- C3.  When every input candidate's detector is the single name
`"regex"` or `"llm"`, every fused endpoint's detector splits on `"+"`
into components that are pairwise distinct and strictly ascending in the
lexicographic string order; in particular one `"regex"` plus one `"llm"`
candidate for the same `(path, method)` fuse to detector `"llm+regex"`
(never `"regex+llm"` nor `"llm+llm"`). -/
theorem dedup_detector_sorted_nodup :
    (∀ cands : List Endpoint, (∀ e ∈ cands, e.detector = "regex" ∨ e.detector = "llm") →
      ∀ s ∈ deduplicate_endpoints cands,
        (splitPlus s.detector).Nodup ∧
          (splitPlus s.detector).Pairwise (fun a b => strLt a b = true)) ∧
    (∀ e1 e2 : Endpoint, epKey e1 = epKey e2 → e1.detector = "regex" → e2.detector = "llm" →
      (deduplicate_endpoints [e1, e2]).map Endpoint.detector = ["llm+regex"]) := by
  constructor
  · intro cands hc s hs
    have hinv : ∀ kv ∈ cands.foldl mergeStep ([] : List ((String × String) × Endpoint)),
        detOK kv.2.detector := by
      have : ∀ (l : List Endpoint) (m : List ((String × String) × Endpoint)),
          (∀ e ∈ l, e.detector = "regex" ∨ e.detector = "llm") →
          (∀ kv ∈ m, detOK kv.2.detector) →
          ∀ kv ∈ l.foldl mergeStep m, detOK kv.2.detector := by
        intro l
        induction l with
        | nil => intro m _ hm; exact hm
        | cons c cs ih =>
          intro m hl hm
          exact ih (mergeStep m c) (fun e he' => hl e (List.mem_cons_of_mem _ he'))
            (detInv_mergeStep hm (hl c (List.mem_cons_self _ _)))
      exact this cands [] hc (by simp)
    obtain ⟨kv, hkv, hsnd⟩ := List.mem_map.mp hs
    have hok : detOK s.detector := hsnd ▸ hinv kv hkv
    rcases hok with h | h | h <;> rw [h] <;> constructor <;> decide
  · intro e1 e2 hk h1 h2
    have hd : e2.detector ∉ splitPlus e1.detector := by rw [h1, h2]; decide
    rw [dedup_pair_merge e1 e2 hk hd]
    simp only [List.map_cons, List.map_nil]
    rw [h1, h2]
    rfl

/-- Witness for C3 at concrete inputs: a `"regex"` and an `"llm"`
candidate with the same key fuse to `"llm+regex"`, whose components are
distinct and sorted. -/
theorem dedup_detector_sorted_nodup_witness :
    ((splitPlus "llm+regex").Nodup ∧
      (splitPlus "llm+regex").Pairwise (fun a b => strLt a b = true)) ∧
    (deduplicate_endpoints
      [({ path := "/api/u", method := "GET", detector := "regex" } : Endpoint),
       { path := "/api/u", method := "GET", detector := "llm" }]).map
        Endpoint.detector = ["llm+regex"] :=
  ⟨dedup_detector_sorted_nodup.1
      [{ path := "/api/u", method := "GET", detector := "regex" },
       { path := "/api/u", method := "GET", detector := "llm" }]
      (by decide)
      { path := "/api/u", method := "GET", auth := {}, confidence := 1,
        detector := "llm+regex", context := some "", line_number := none }
      (by decide),
   dedup_detector_sorted_nodup.2
      { path := "/api/u", method := "GET", detector := "regex" }
      { path := "/api/u", method := "GET", detector := "llm" }
      (by decide) rfl rfl⟩

/-- The rational 9/10 as a normalized literal (so that kernel evaluation
never has to normalize fractions). -/
def rat09 : ℚ := Rat.mk' 9 10 (by decide) (by norm_num)

/-- The rational 1/2 as a normalized literal. -/
def rat05 : ℚ := Rat.mk' 1 2 (by decide) (by norm_num)

/-- The rational 3/10 as a normalized literal. -/
def rat03 : ℚ := Rat.mk' 3 10 (by decide) (by norm_num)

/-- Counterexample to C1 as stated.  Three candidates share the key
`("/api/x", "GET")`: a regex candidate with confidence 0.9, a regex
candidate with confidence 0.5 and an llm candidate with confidence 0.3.
Processed as `[A, B, C]` the fused survivor has detector `"llm+regex"`;
processed in the order `[B, C, A]` (a permutation of the same equal-key
entries) the late high-confidence regex candidate replaces the merged
survivor wholesale and the final detector set is just `{"regex"}` — the
final set of distinct detector names is NOT order-invariant. -/
theorem dedup_not_order_invariant :
    ([({ path := "/api/x", method := "GET", confidence := rat05, detector := "regex" } : Endpoint),
      { path := "/api/x", method := "GET", confidence := rat03, detector := "llm" },
      { path := "/api/x", method := "GET", confidence := rat09, detector := "regex" }].Perm
     [({ path := "/api/x", method := "GET", confidence := rat09, detector := "regex" } : Endpoint),
      { path := "/api/x", method := "GET", confidence := rat05, detector := "regex" },
      { path := "/api/x", method := "GET", confidence := rat03, detector := "llm" }]) ∧
    (deduplicate_endpoints
      [({ path := "/api/x", method := "GET", confidence := rat09, detector := "regex" } : Endpoint),
       { path := "/api/x", method := "GET", confidence := rat05, detector := "regex" },
       { path := "/api/x", method := "GET", confidence := rat03, detector := "llm" }]).map
        Endpoint.detector = ["llm+regex"] ∧
    (deduplicate_endpoints
      [({ path := "/api/x", method := "GET", confidence := rat05, detector := "regex" } : Endpoint),
       { path := "/api/x", method := "GET", confidence := rat03, detector := "llm" },
       { path := "/api/x", method := "GET", confidence := rat09, detector := "regex" }]).map
        Endpoint.detector = ["regex"] := by
  refine ⟨by decide, by rfl, by rfl⟩

/-- C1 (amended).  For one `"regex"` candidate and one `"llm"` candidate
sharing a `(path, method)` key — so that no detector name repeats within
the key — fusing in either order yields the same detector string
(`"llm+regex"`), the same (maximum) confidence and the same resolved
method; only the concatenated context ordering may differ.  (Full
order-invariance of the detector set fails once a detector name occurs in
more than one same-key candidate, see `dedup_not_order_invariant`.) -/
theorem dedup_pair_order_invariant (e1 e2 : Endpoint) (hp : e1.path = e2.path)
    (hm : e1.method = e2.method) (h1 : e1.detector = "regex") (h2 : e2.detector = "llm") :
    (deduplicate_endpoints [e1, e2]).map Endpoint.detector =
        (deduplicate_endpoints [e2, e1]).map Endpoint.detector ∧
    (deduplicate_endpoints [e1, e2]).map Endpoint.confidence =
        (deduplicate_endpoints [e2, e1]).map Endpoint.confidence ∧
    (deduplicate_endpoints [e1, e2]).map Endpoint.method =
        (deduplicate_endpoints [e2, e1]).map Endpoint.method ∧
    (deduplicate_endpoints [e1, e2]).map Endpoint.detector = ["llm+regex"] := by
  have hk : epKey e1 = epKey e2 := by simp [epKey, hp, hm]
  have hd12 : e2.detector ∉ splitPlus e1.detector := by rw [h1, h2]; decide
  have hd21 : e1.detector ∉ splitPlus e2.detector := by rw [h1, h2]; decide
  rw [dedup_pair_merge e1 e2 hk hd12, dedup_pair_merge e2 e1 hk.symm hd21]
  refine ⟨?_, ?_, ?_, ?_⟩
  · simp only [List.map_cons, List.map_nil]
    rw [h1, h2]
    rfl
  · simp only [List.map_cons, List.map_nil]
    rw [max_comm]
  · simp only [List.map_cons, List.map_nil]
    simp [hm]
  · simp only [List.map_cons, List.map_nil]
    rw [h1, h2]
    rfl

/-- Witness for C1's amended theorem at concrete inputs. -/
theorem dedup_pair_order_invariant_witness :
    (deduplicate_endpoints
      [({ path := "/api/w", method := "POST", confidence := rat05, detector := "regex" } : Endpoint),
       { path := "/api/w", method := "POST", confidence := rat09, detector := "llm" }]).map
        Endpoint.detector =
      (deduplicate_endpoints
        [({ path := "/api/w", method := "POST", confidence := rat09, detector := "llm" } : Endpoint),
         { path := "/api/w", method := "POST", confidence := rat05, detector := "regex" }]).map
          Endpoint.detector ∧
    (deduplicate_endpoints
      [({ path := "/api/w", method := "POST", confidence := rat05, detector := "regex" } : Endpoint),
       { path := "/api/w", method := "POST", confidence := rat09, detector := "llm" }]).map
        Endpoint.confidence =
      (deduplicate_endpoints
        [({ path := "/api/w", method := "POST", confidence := rat09, detector := "llm" } : Endpoint),
         { path := "/api/w", method := "POST", confidence := rat05, detector := "regex" }]).map
          Endpoint.confidence ∧
    (deduplicate_endpoints
      [({ path := "/api/w", method := "POST", confidence := rat05, detector := "regex" } : Endpoint),
       { path := "/api/w", method := "POST", confidence := rat09, detector := "llm" }]).map
        Endpoint.method =
      (deduplicate_endpoints
        [({ path := "/api/w", method := "POST", confidence := rat09, detector := "llm" } : Endpoint),
         { path := "/api/w", method := "POST", confidence := rat05, detector := "regex" }]).map
          Endpoint.method ∧
    (deduplicate_endpoints
      [({ path := "/api/w", method := "POST", confidence := rat05, detector := "regex" } : Endpoint),
       { path := "/api/w", method := "POST", confidence := rat09, detector := "llm" }]).map
        Endpoint.detector = ["llm+regex"] :=
  dedup_pair_order_invariant
    { path := "/api/w", method := "POST", confidence := rat05, detector := "regex" }
    { path := "/api/w", method := "POST", confidence := rat09, detector := "llm" }
    rfl rfl rfl rfl

/-! ### C2: normalization and idempotence -/

/-- "The list contains no adjacent pair on which `bad` holds." -/
def noPairB (bad : Char → Char → Bool) : List Char → Bool
  | [] => true
  | [_] => true
  | a :: b :: rest => !bad a b && noPairB bad (b :: rest)

/-- The adjacent pair `$\x7b` that starts a template interpolation. -/
def dollarBracePair (a b : Char) : Bool := a = '$' && b = lbrace

/-- The adjacent pair `//` of a doubled slash. -/
def slashPair (a b : Char) : Bool := a = '/' && b = '/'

theorem noPairB_tail {bad : Char → Char → Bool} {c : Char} {l : List Char}
    (h : noPairB bad (c :: l) = true) : noPairB bad l = true := by
  cases l with
  | nil => rfl
  | cons b rest =>
    simp only [noPairB, Bool.and_eq_true] at h
    exact h.2

theorem noPairB_append_left {bad : Char → Char → Bool} {t : List Char} :
    ∀ {l : List Char}, noPairB bad (l ++ t) = true → noPairB bad l = true := by
  intro l
  induction l with
  | nil => intro _; rfl
  | cons a l ih =>
    cases l with
    | nil => intro _; rfl
    | cons b rest =>
      intro h
      simp only [List.cons_append, noPairB, Bool.and_eq_true] at h ⊢
      exact ⟨h.1, ih (by simpa using h.2)⟩

theorem noPairB_suffix {bad : Char → Char → Bool} :
    ∀ (pre l : List Char), noPairB bad (pre ++ l) = true → noPairB bad l = true := by
  intro pre
  induction pre with
  | nil => intro l h; simpa using h
  | cons p ps ih =>
    intro l h
    exact ih l (noPairB_tail (by simpa using h))

theorem noPairB_of_isSuffix {bad : Char → Char → Bool} {l' l : List Char}
    (hs : l' <:+ l) (h : noPairB bad l = true) : noPairB bad l' = true := by
  obtain ⟨pre, hpre⟩ := hs
  exact noPairB_suffix pre l' (hpre ▸ h)

theorem noPairB_of_isPrefix {bad : Char → Char → Bool} {l' l : List Char}
    (hs : l' <+: l) (h : noPairB bad l = true) : noPairB bad l' = true := by
  obtain ⟨t, ht⟩ := hs
  exact noPairB_append_left (ht ▸ h)

theorem sub1Go_nil : ∀ fuel : Nat, sub1Go fuel [] = [] := by
  intro fuel; cases fuel <;> rfl

/-- Without a `$\x7b` pair, the template-substitution pass is the
identity. -/
theorem sub1Go_id : ∀ (fuel : Nat) (l : List Char),
    noPairB dollarBracePair l = true → sub1Go fuel l = l := by
  intro fuel
  induction fuel with
  | zero => intro l _; rfl
  | succ fuel ih =>
    intro l h
    cases l with
    | nil => rfl
    | cons c rest =>
      have hcond : ¬(c = '$' ∧ rest.head? = some lbrace) := by
        rintro ⟨hc, hh⟩
        cases rest with
        | nil => simp at hh
        | cons b rb =>
          simp only [List.head?_cons, Option.some.injEq] at hh
          simp only [noPairB, Bool.and_eq_true, Bool.not_eq_true'] at h
          rw [dollarBracePair, hc, hh] at h
          simp at h
      simp only [sub1Go, if_neg hcond]
      rw [ih rest (noPairB_tail h)]

theorem sub1_id {l : List Char} (h : noPairB dollarBracePair l = true) : sub1 l = l :=
  sub1Go_id l.length l h

theorem collapseSlashes_head? : ∀ l : List Char, (collapseSlashes l).head? = l.head? := by
  intro l
  induction l with
  | nil => rfl
  | cons a l ih =>
    cases l with
    | nil => rfl
    | cons b rest =>
      by_cases hab : a = '/' ∧ b = '/'
      · have hhead : (collapseSlashes (b :: rest)).head? = some b := by
          rw [ih]; rfl
        simp only [collapseSlashes, if_pos hab, hhead, List.head?_cons]
        rw [hab.1, hab.2]
      · simp [collapseSlashes, if_neg hab]

theorem collapseSlashes_ne_nil : ∀ {l : List Char}, l ≠ [] → collapseSlashes l ≠ [] := by
  intro l hl
  intro hc
  have h1 : (collapseSlashes l).head? = none := by rw [hc]; rfl
  rw [collapseSlashes_head?] at h1
  cases l with
  | nil => exact hl rfl
  | cons a l => simp at h1

theorem collapseSlashes_getLast? : ∀ l : List Char, (collapseSlashes l).getLast? = l.getLast? := by
  intro l
  induction l with
  | nil => rfl
  | cons a l ih =>
    cases l with
    | nil => rfl
    | cons b rest =>
      by_cases hab : a = '/' ∧ b = '/'
      · simp only [collapseSlashes, if_pos hab]
        rw [ih, List.getLast?_cons_cons]
      · simp only [collapseSlashes, if_neg hab]
        have hne : collapseSlashes (b :: rest) ≠ [] := collapseSlashes_ne_nil (by simp)
        obtain ⟨c, cs, hX⟩ := List.exists_cons_of_ne_nil hne
        rw [hX, List.getLast?_cons_cons, ← hX, ih, List.getLast?_cons_cons]

/-- The collapse pass cannot create a new adjacent pair: any pair of the
output was already adjacent in the input. -/
theorem noPairB_collapseSlashes {bad : Char → Char → Bool} :
    ∀ {l : List Char}, noPairB bad l = true → noPairB bad (collapseSlashes l) = true := by
  intro l
  induction l with
  | nil => intro _; rfl
  | cons a l ih =>
    cases l with
    | nil => intro _; rfl
    | cons b rest =>
      intro h
      simp only [noPairB, Bool.and_eq_true, Bool.not_eq_true'] at h
      by_cases hab : a = '/' ∧ b = '/'
      · simp only [collapseSlashes, if_pos hab]
        exact ih h.2
      · simp only [collapseSlashes, if_neg hab]
        have hX := ih h.2
        cases hc : collapseSlashes (b :: rest) with
        | nil => rfl
        | cons c cs =>
          have hcb : c = b := by
            have h0 := collapseSlashes_head? (b :: rest)
            rw [hc] at h0
            simpa using h0
          rw [hc] at hX
          simp only [noPairB, Bool.and_eq_true, Bool.not_eq_true']
          exact ⟨hcb ▸ h.1, hX⟩

/-- The collapse pass leaves no doubled slash behind. -/
theorem collapseSlashes_noSS : ∀ l : List Char, noPairB slashPair (collapseSlashes l) = true := by
  intro l
  induction l with
  | nil => rfl
  | cons a l ih =>
    cases l with
    | nil => rfl
    | cons b rest =>
      by_cases hab : a = '/' ∧ b = '/'
      · simpa only [collapseSlashes, if_pos hab] using ih
      · simp only [collapseSlashes, if_neg hab]
        cases hc : collapseSlashes (b :: rest) with
        | nil => rfl
        | cons c cs =>
          have hcb : c = b := by
            have h0 := collapseSlashes_head? (b :: rest)
            rw [hc] at h0
            simpa using h0
          rw [hc] at ih
          simp only [noPairB, Bool.and_eq_true, Bool.not_eq_true']
          refine ⟨?_, ih⟩
          subst hcb
          simp only [slashPair, Bool.and_eq_false_iff]
          by_cases ha : a = '/'
          · right
            have : ¬c = '/' := fun hb => hab ⟨ha, hb⟩
            simpa using this
          · left
            simpa using ha

/-- Without a doubled slash the collapse pass is the identity. -/
theorem collapseSlashes_id_of_noSS :
    ∀ {l : List Char}, noPairB slashPair l = true → collapseSlashes l = l := by
  intro l
  induction l with
  | nil => intro _; rfl
  | cons a l ih =>
    cases l with
    | nil => intro _; rfl
    | cons b rest =>
      intro h
      simp only [noPairB, Bool.and_eq_true, Bool.not_eq_true'] at h
      have hab : ¬(a = '/' ∧ b = '/') := by
        rintro ⟨ha, hb⟩
        have h1 := h.1
        rw [slashPair, ha, hb] at h1
        simp at h1
      simp only [collapseSlashes, if_neg hab]
      rw [ih h.2]

theorem dropWhile_head_false {p : Char → Bool} :
    ∀ {l : List Char} {c : Char}, (l.dropWhile p).head? = some c → p c = false := by
  intro l
  induction l with
  | nil => intro c h; simp at h
  | cons a rest ih =>
    intro c h
    by_cases hp : p a
    · rw [List.dropWhile_cons, if_pos hp] at h
      exact ih h
    · rw [List.dropWhile_cons, if_neg hp] at h
      simp only [List.head?_cons, Option.some.injEq] at h
      rw [← h]
      simpa using hp

theorem dropWhile_id_of_head {p : Char → Bool} {l : List Char}
    (h : ∀ c, l.head? = some c → p c = false) : l.dropWhile p = l := by
  cases l with
  | nil => rfl
  | cons a rest =>
    rw [List.dropWhile_cons, if_neg ?_]
    simpa using h a rfl

/-- The quote-stripping pass cannot create a new adjacent pair: its output
is an infix of its input. -/
theorem noPairB_stripQuotes {bad : Char → Char → Bool} {l : List Char}
    (h : noPairB bad l = true) : noPairB bad (stripQuotes l) = true := by
  have h1 : noPairB bad (l.dropWhile isQuoteChar) = true :=
    noPairB_of_isSuffix (List.dropWhile_suffix _) h
  have hs : (l.dropWhile isQuoteChar).reverse.dropWhile isQuoteChar <:+
      (l.dropWhile isQuoteChar).reverse := List.dropWhile_suffix _
  have hpre : ((l.dropWhile isQuoteChar).reverse.dropWhile isQuoteChar).reverse <+:
      l.dropWhile isQuoteChar := by
    have h2 := List.reverse_prefix.mpr hs
    simpa using h2
  exact noPairB_of_isPrefix hpre h1

theorem stripQuotes_head_false {l : List Char} {c : Char}
    (h : (stripQuotes l).head? = some c) : isQuoteChar c = false := by
  have hpre : stripQuotes l <+: l.dropWhile isQuoteChar := by
    have hs : (l.dropWhile isQuoteChar).reverse.dropWhile isQuoteChar <:+
        (l.dropWhile isQuoteChar).reverse := List.dropWhile_suffix _
    have h2 := List.reverse_prefix.mpr hs
    simpa [stripQuotes] using h2
  obtain ⟨t, ht⟩ := hpre
  have hh : (l.dropWhile isQuoteChar).head? = some c := by
    rw [← ht]
    cases hsq : stripQuotes l with
    | nil => rw [hsq] at h; simp at h
    | cons x xs =>
      rw [hsq] at h
      simp only [List.head?_cons, Option.some.injEq] at h
      simp [h]
  exact dropWhile_head_false hh

theorem stripQuotes_getLast_false {l : List Char} {c : Char}
    (h : (stripQuotes l).getLast? = some c) : isQuoteChar c = false := by
  have hgl : ((l.dropWhile isQuoteChar).reverse.dropWhile isQuoteChar).head? = some c := by
    have := List.getLast?_reverse ((l.dropWhile isQuoteChar).reverse.dropWhile isQuoteChar)
    rw [← this]
    exact h
  exact dropWhile_head_false hgl

theorem stripQuotes_id_of_ends {l : List Char}
    (hh : ∀ c, l.head? = some c → isQuoteChar c = false)
    (hg : ∀ c, l.getLast? = some c → isQuoteChar c = false) : stripQuotes l = l := by
  have h1 : l.dropWhile isQuoteChar = l := dropWhile_id_of_head hh
  have h2 : l.reverse.dropWhile isQuoteChar = l.reverse := by
    apply dropWhile_id_of_head
    intro c hc
    rw [List.head?_reverse] at hc
    exact hg c hc
  rw [stripQuotes, h1, h2, List.reverse_reverse]

/-- C2 (amended).  On every input without the template-opening pair
`$\x7b`, normalization is idempotent. -/
theorem normalize_path_idempotent_of_noPair (l : List Char)
    (h : noPairB dollarBracePair l = true) :
    normalize_path (normalize_path l) = normalize_path l := by
  have hsub : sub1 l = l := sub1_id h
  have hstripPair : noPairB dollarBracePair (stripQuotes l) = true := noPairB_stripQuotes h
  have hcolPair : noPairB dollarBracePair (collapseSlashes (stripQuotes l)) = true :=
    noPairB_collapseSlashes hstripPair
  have hnl : normalize_path l = collapseSlashes (stripQuotes l) := by
    rw [normalize_path, hsub]
  rw [hnl]
  have hsub2 : sub1 (collapseSlashes (stripQuotes l)) = collapseSlashes (stripQuotes l) :=
    sub1_id hcolPair
  have hstrip2 : stripQuotes (collapseSlashes (stripQuotes l)) =
      collapseSlashes (stripQuotes l) := by
    apply stripQuotes_id_of_ends
    · intro c hc
      rw [collapseSlashes_head?] at hc
      obtain ⟨t, ht⟩ : stripQuotes l <+: l.dropWhile isQuoteChar := by
        have hs : (l.dropWhile isQuoteChar).reverse.dropWhile isQuoteChar <:+
            (l.dropWhile isQuoteChar).reverse := List.dropWhile_suffix _
        have h2 := List.reverse_prefix.mpr hs
        simpa [stripQuotes] using h2
      exact stripQuotes_head_false hc
    · intro c hc
      rw [collapseSlashes_getLast?] at hc
      exact stripQuotes_getLast_false hc
  have hcol2 : collapseSlashes (collapseSlashes (stripQuotes l)) =
      collapseSlashes (stripQuotes l) :=
    collapseSlashes_id_of_noSS (collapseSlashes_noSS (stripQuotes l))
  calc normalize_path (collapseSlashes (stripQuotes l))
      = collapseSlashes (stripQuotes (sub1 (collapseSlashes (stripQuotes l)))) := rfl
    _ = collapseSlashes (stripQuotes l) := by rw [hsub2, hstrip2, hcol2]

/-- Counterexample to C2 as stated.  On the input `$$\x7ba\x7d` the first
normalization pass rewrites the inner `$\x7ba\x7d` to `\x7ba\x7d`, leaving
`$\x7ba\x7d` — which a second pass rewrites again, to `\x7ba\x7d`: so
`normalize(normalize(x)) ≠ normalize(x)`. -/
theorem normalize_path_not_idempotent :
    normalize_path (normalize_path "$$\x7ba\x7d".data) ≠ normalize_path "$$\x7ba\x7d".data ∧
    (normalize_path "$$\x7ba\x7d".data).asString = "$\x7ba\x7d" ∧
    (normalize_path (normalize_path "$$\x7ba\x7d".data)).asString = "\x7ba\x7d" :=
  ⟨by decide, rfl, rfl⟩

/-- Witness for C2's amended theorem at a concrete input without `$\x7b`. -/
theorem normalize_path_idempotent_witness :
    noPairB dollarBracePair "'/api//v1/users'".data = true ∧
    normalize_path (normalize_path "'/api//v1/users'".data) =
      normalize_path "'/api//v1/users'".data :=
  ⟨by decide, normalize_path_idempotent_of_noPair "'/api//v1/users'".data (by decide)⟩

/-! ### A small backtracking matcher for the hard-coded regular expressions

The repository's regular expressions (endpoint patterns, auth patterns,
the HTTP-verb search, the chunker's configuration scan and the
`is_endpoint` signature list) are transcribed token by token into the
types below.  `matchSToks` returns the list of possible remainders in
Python's backtracking priority order (greedy quantifiers longest-first,
alternation in written order); the head of the list is the match Python's
`re` would produce.  The `ci` flag models `re.IGNORECASE` (over ASCII,
which covers every pattern and input in this development). -/

/-- Simple (non-capturing) regex tokens. -/
inductive STok where
  | lit : List Char → STok
  | cls : (Char → Bool) → STok
  | plus : (Char → Bool) → STok
  | star : (Char → Bool) → STok
  | opt : (Char → Bool) → STok
  | alt : List (List Char) → STok
  | eos : STok

/-- A pattern element: a simple token or one capturing group of simple
tokens (no pattern in the source nests capturing groups). -/
inductive Tok where
  | simple : STok → Tok
  | group : List STok → Tok

/-- Character comparison, optionally case-insensitive (ASCII lowering, as
Python's `re.IGNORECASE` behaves on ASCII). -/
def chEq (ci : Bool) (a b : Char) : Bool :=
  if ci then a.toLower = b.toLower else a = b

/-- Match a literal word at the head of `s`; return the remainder. -/
def litPrefix (ci : Bool) : List Char → List Char → Option (List Char)
  | [], s => some s
  | _ :: _, [] => none
  | w0 :: ws, c :: cs => if chEq ci w0 c then litPrefix ci ws cs else none

/-- All possible remainders of matching the token sequence against `s`, in
backtracking priority order. -/
def matchSToks (ci : Bool) : List STok → List Char → List (List Char)
  | [], s => [s]
  | .lit w :: ts, s =>
    match litPrefix ci w s with
    | some s2 => matchSToks ci ts s2
    | none => []
  | .cls f :: ts, s =>
    match s with
    | c :: cs => if f c then matchSToks ci ts cs else []
    | [] => []
  | .plus f :: ts, s =>
    let n := (s.takeWhile f).length
    ((List.range n).map (fun i => n - i)).flatMap (fun k => matchSToks ci ts (s.drop k))
  | .star f :: ts, s =>
    let n := (s.takeWhile f).length
    ((List.range (n + 1)).map (fun i => n - i)).flatMap (fun k => matchSToks ci ts (s.drop k))
  | .opt f :: ts, s =>
    (match s with
     | c :: cs => if f c then matchSToks ci ts cs else []
     | [] => []) ++ matchSToks ci ts s
  | .alt ws :: ts, s =>
    ws.flatMap (fun w =>
      match litPrefix ci w s with
      | some s2 => matchSToks ci ts s2
      | none => [])
  | .eos :: ts, s =>
    match s with
    | [] => matchSToks ci ts s
    | _ :: _ => []

/-- Like `matchSToks` but collecting the text consumed by each capturing
group (in order). -/
def matchToks (ci : Bool) : List Tok → List Char → List (List Char × List (List Char))
  | [], s => [(s, [])]
  | .simple t :: ts, s =>
    (matchSToks ci [t] s).flatMap (fun s2 => matchToks ci ts s2)
  | .group sub :: ts, s =>
    (matchSToks ci sub s).flatMap (fun s2 =>
      let captured := s.take (s.length - s2.length)
      (matchToks ci ts s2).map (fun r => (r.1, captured :: r.2)))

/-- Try the pattern anchored at offset `i` of `text`; on success return
the match's end offset and the captured groups. -/
def reMatchAt (ci : Bool) (pat : List Tok) (text : List Char) (i : Nat) :
    Option (Nat × List (List Char)) :=
  match (matchToks ci pat (text.drop i)).head? with
  | some (rem, caps) => some (text.length - rem.length, caps)
  | none => none

/-- `re.search`: scan offsets left to right, first match wins.  Returns
(start, end, groups). -/
def reSearchAux (ci : Bool) (pat : List Tok) (text : List Char) :
    Nat → Nat → Option (Nat × Nat × List (List Char))
  | _, 0 => none
  | i, fuel + 1 =>
    match reMatchAt ci pat text i with
    | some (e, caps) => some (i, e, caps)
    | none => if i < text.length then reSearchAux ci pat text (i + 1) fuel else none

def reSearch (ci : Bool) (pat : List Tok) (text : List Char) :
    Option (Nat × Nat × List (List Char)) :=
  reSearchAux ci pat text 0 (text.length + 1)

/-- `re.finditer`: scan left to right emitting non-overlapping matches,
resuming after each match's end (empty matches advance by one). -/
def finditerAux (ci : Bool) (pat : List Tok) (text : List Char) :
    Nat → Nat → List (Nat × Nat × List (List Char))
  | _, 0 => []
  | i, fuel + 1 =>
    if i > text.length then []
    else
      match reMatchAt ci pat text i with
      | some (e, caps) =>
        (i, e, caps) :: finditerAux ci pat text (if e > i then e else i + 1) fuel
      | none => finditerAux ci pat text (i + 1) fuel

def finditer (ci : Bool) (pat : List Tok) (text : List Char) :
    List (Nat × Nat × List (List Char)) :=
  finditerAux ci pat text 0 (text.length + 2)

/-! #### Character classes used by the source's patterns -/

/-- The quote class `` ['"`] `` of the endpoint patterns. -/
def isQ (c : Char) : Bool := c = '\'' || c = '"' || c = backquote

/-- The negated quote class `` [^'"`] ``. -/
def notQ (c : Char) : Bool := !isQ c

/-- `\d`. -/
def isDigitCh (c : Char) : Bool := c.isDigit

/-- `\w` (ASCII). -/
def isWordCh (c : Char) : Bool := c.isAlpha || c.isDigit || c = '_'

/-- A literal-text pattern element. -/
def L (s : String) : Tok := .simple (.lit s.data)

/-- A `\s*` pattern element. -/
def WS : Tok := .simple (.star pySpace)

/-- The HTTP verb alternatives `get|post|put|delete|patch`. -/
def httpVerbs : List (List Char) :=
  ["get", "post", "put", "delete", "patch"].map String.data

/-! ### PatternDetector: `RegexAnalyzer` (src/jalapi/core/regex_analyzer.py) -/

/-- The eleven endpoint patterns of `RegexAnalyzer.__init__` (lines 22-39),
in order, transcribed token by token. -/
def discoverPatterns : List (List Tok) :=
  [ -- axios.(?:get|post|put|delete|patch)\s*\(\s*['"`]([^'"`]+)['"`]
    [L "axios.", .simple (.alt httpVerbs), WS, L "(", WS,
     .simple (.cls isQ), .group [.plus notQ], .simple (.cls isQ)],
    -- axios\s*\(\s*{\s*url:\s*['"`]([^'"`]+)['"`]
    [L "axios", WS, L "(", WS, L "\x7b", WS, L "url:", WS,
     .simple (.cls isQ), .group [.plus notQ], .simple (.cls isQ)],
    -- fetch\s*\(\s*['"`]([^'"`]+)['"`]
    [L "fetch", WS, L "(", WS, .simple (.cls isQ), .group [.plus notQ], .simple (.cls isQ)],
    -- fetch\s*\(\s*`([^`]+)`
    [L "fetch", WS, L "(", WS, L "\x60",
     .group [.plus (fun c => c != backquote)], L "\x60"],
    -- \$\.ajax\s*\(\s*{\s*url:\s*['"`]([^'"`]+)['"`]
    [L "$.ajax", WS, L "(", WS, L "\x7b", WS, L "url:", WS,
     .simple (.cls isQ), .group [.plus notQ], .simple (.cls isQ)],
    -- \$\.(get|post|put|delete|patch)\s*\(\s*['"`]([^'"`]+)['"`]
    [L "$.", .group [.alt httpVerbs], WS, L "(", WS,
     .simple (.cls isQ), .group [.plus notQ], .simple (.cls isQ)],
    -- url\s*:\s*['"`]([^'"`]+)['"`]
    [L "url", WS, L ":", WS, .simple (.cls isQ), .group [.plus notQ], .simple (.cls isQ)],
    -- endpoint\s*:\s*['"`]([^'"`]+)['"`]
    [L "endpoint", WS, L ":", WS, .simple (.cls isQ), .group [.plus notQ], .simple (.cls isQ)],
    -- path\s*:\s*['"`]([^'"`]+)['"`]
    [L "path", WS, L ":", WS, .simple (.cls isQ), .group [.plus notQ], .simple (.cls isQ)],
    -- ['"`](\/api\/[^'"`]+)['"`]
    [.simple (.cls isQ), .group [.lit "/api/".data, .plus notQ], .simple (.cls isQ)],
    -- ['"`](\/v\d+\/[^'"`]+)['"`]
    [.simple (.cls isQ), .group [.lit "/v".data, .plus isDigitCh, .lit "/".data, .plus notQ],
     .simple (.cls isQ)] ]

/-- `s?` / `2?` / `[_-]?` optional single characters (`re.IGNORECASE`
handled inside the class function). -/
def optS : Tok := .simple (.opt (fun c => c.toLower = 's'))

/-- The thirty signature patterns of `EndpointProcessor.is_endpoint`
(src/jalapi/core/endpoint_processor.py lines 55-86), in order. -/
def isEndpointPats : List (List Tok) :=
  [ [L "/api/"],
    [L "/v", .simple (.plus isDigitCh), L "/"],
    [L "/graphql"],
    [L "/rest/"],
    [L "/auth/"],
    [L "/oauth", .simple (.opt (fun c => c = '2')), L "/"],
    [L "/rpc/"],
    [L "/webhook"],
    [L "/data"],
    [L "/service"],
    [L "/event", optS, L "/"],
    [L "/user", optS, L "/"],
    [L "/", .simple (.plus isWordCh), L "/\x7b", .simple (.plus isWordCh), L "\x7d"],
    [L "/ml", .simple (.cls (fun c => c = '-' || c = '/'))],
    [L "/sync"],
    [L "/report", optS, L "/"],
    [L "/tasks/"],
    [L "/export/"],
    [L "/version-info/"],
    [L "/features/"],
    [L "/preferences"],
    [L "/profile", .simple .eos],
    [L "/activity/"],
    [L "/mfa/"],
    [L "/challenge", .simple .eos],
    [L "/predict", .simple .eos],
    [L "/token", .simple .eos],
    [L "/refresh", .simple .eos],
    [L "/revoke", .simple .eos],
    [L "/test", .simple .eos] ]

/-- `EndpointProcessor.is_endpoint` (lines 38-89): strip quotes, then test
whether ANY signature pattern matches somewhere (case-insensitively). -/
def is_endpoint (url : List Char) : Bool :=
  let u := stripQuotes url
  isEndpointPats.any (fun p => (reSearch true p u).isSome)

/-- `RegexAnalyzer._get_context` (lines 117-131): the window of
`window` characters centred on `position`. -/
def get_context (content : List Char) (position window : Nat) : List Char :=
  let start := position - window / 2
  let stop := min content.length (position + window / 2)
  (content.drop start).take (stop - start)

/-- The HTTP-verb search of `discover_endpoints` (lines 90-95):
`re.search(r"(get|post|put|delete|patch)", context, re.IGNORECASE)`,
uppercasing the captured verb, defaulting to `"UNKNOWN"`. -/
def detect_method (context : List Char) : String :=
  match reSearch true [Tok.group [.alt httpVerbs]] context with
  | some (_, _, g :: _) => (g.map Char.toUpper).asString
  | _ => "UNKNOWN"

/-- `RegexAnalyzer.auth_patterns` (lines 42-47) transcribed in order. -/
def authPats : List (List Tok × String × String) :=
  [ ([L "Authorization", WS, L ":", WS, .simple (.cls isQ), L "Bearer"], "Bearer", "header"),
    ([L "X-API-Key"], "apiKey", "header"),
    ([L "api", .simple (.opt (fun c => c = '_' || c = '-')), L "key"], "apiKey", "query"),
    ([L "token", WS, L ":"], "token", "body") ]

/-- The generic fallback `auth|token|jwt|apikey` of `_detect_auth`
(line 151). -/
def authGenericPat : List Tok :=
  [.simple (.alt (["auth", "token", "jwt", "apikey"].map String.data))]

/-- Helper: first auth pattern matching the context. -/
def findAuthPat (context : List Char) :
    List (List Tok × String × String) → Option (String × String)
  | [] => none
  | (p, ty, loc) :: rest =>
    if (reSearch true p context).isSome then some (ty, loc)
    else findAuthPat context rest

/-- `RegexAnalyzer._detect_auth` (lines 133-154). -/
def detect_auth (context : List Char) : AuthInfo :=
  match findAuthPat context authPats with
  | some (ty, loc) => { required := true, type := some ty, location := some loc }
  | none =>
    if (reSearch true authGenericPat context).isSome then { required := true }
    else { required := false }

/-- The rational 7/10 (the fixed regex-detector confidence 0.7) as a
normalized literal. -/
def rat07 : ℚ := Rat.mk' 7 10 (by decide) (by norm_num)

/-- Group selection of `discover_endpoints` (lines 68-72): the first
truthy captured group containing a slash or (case-insensitively) the text
`api`. -/
def containsSub (needle : List Char) : List Char → Bool
  | [] => needle.isEmpty
  | c :: rest => needle.isPrefixOf (c :: rest) || containsSub needle rest

def extractPath (groups : List (List Char)) : Option (List Char) :=
  groups.find? (fun g =>
    !g.isEmpty && (g.contains '/' || containsSub "api".data (g.map Char.toLower)))

/-- State of the `discover_endpoints` loop: emitted endpoints plus the
per-detector `seen_paths` set. -/
structure DiscState where
  endpoints : List Endpoint
  seen : List (List Char)

/-- Body of the inner loop of `RegexAnalyzer.discover_endpoints`
(lines 66-113) for one regex match. -/
def processMatch (js : List Char) (st : DiscState) (m : Nat × Nat × List (List Char)) :
    DiscState :=
  match extractPath m.2.2 with
  | none => st
  | some path0 =>
    let path := normalize_path path0
    if !is_endpoint path || decide (path ∈ st.seen) then st
    else
      let context := get_context js m.1 200
      let endpoint : Endpoint :=
        { path := path.asString
          method := detect_method context
          auth := detect_auth context
          confidence := rat07
          detector := "regex"
          context := none
          line_number := some ((js.take m.1).count '\n' + 1) }
      { endpoints := st.endpoints ++ [endpoint], seen := st.seen ++ [path] }

/-- `RegexAnalyzer.discover_endpoints` (lines 49-115): all patterns in
order, all matches of each in order. -/
def discover_endpoints (js : List Char) : List Endpoint :=
  (discoverPatterns.foldl (fun st p => (finditer true p js).foldl (processMatch js) st)
    { endpoints := [], seen := [] }).endpoints

/-- The concrete source for C6: a call `axios.post('/api/v1/login')` with
the literal text `Authorization: Bearer` (and an object key whose value is
a Bearer token string) inside the 200-character context window of the
match. -/
def srcC6 : List Char :=
  "var h = \x7bAuthorization: 'Bearer abc'\x7d; // Authorization: Bearer\naxios.post('/api/v1/login');".data

/-- C6.  For a source containing `axios.post('/api/v1/login')` with the
literal text `Authorization: Bearer` within the 200-character context
window of the match (which starts at offset 64), the pattern detector
emits the endpoint `path = "/api/v1/login"`, `method = "POST"`,
`detector = "regex"`, with auth required of type `Bearer` in the header. -/
theorem regex_detects_bearer_login :
    containsSub "axios.post('/api/v1/login')".data srcC6 = true ∧
    (finditer true discoverPatterns.headI srcC6).map Prod.fst = [64] ∧
    containsSub "Authorization: Bearer".data (get_context srcC6 64 200) = true ∧
    (discover_endpoints srcC6).map Endpoint.path = ["/api/v1/login"] ∧
    (discover_endpoints srcC6).map Endpoint.method = ["POST"] ∧
    (discover_endpoints srcC6).map Endpoint.detector = ["regex"] ∧
    (discover_endpoints srcC6).map Endpoint.auth =
      [{ required := true, type := some "Bearer", location := some "header" }] :=
  ⟨rfl, rfl, rfl, rfl, rfl, rfl, rfl⟩

/-- C10.  The HTTP-verb inference is an unanchored case-insensitive
substring search: in `fetch('/api/widgets')` the only verb-like text is
the `get` inside the ordinary word `widgets` (offsets 15-18), and the
emitted endpoint's method is `"GET"`, not `"UNKNOWN"`. -/
theorem regex_method_substring_match :
    reSearch true [Tok.group [.alt httpVerbs]] "fetch('/api/widgets')".data =
      some (15, 18, ["get".data]) ∧
    (discover_endpoints "fetch('/api/widgets')".data).map Endpoint.path = ["/api/widgets"] ∧
    (discover_endpoints "fetch('/api/widgets')".data).map Endpoint.method = ["GET"] ∧
    (discover_endpoints "fetch('/api/widgets')".data).map Endpoint.detector = ["regex"] :=
  ⟨rfl, rfl, rfl, rfl⟩

/-! ### Chunker: `simple_chunk_code` (src/jalapi/utils/chunk.py lines 66-132) -/

/-- The configuration-declaration pattern
`const\s+(?:CONFIG|config|API|api|endpoints|ENDPOINTS|routes|ROUTES)\s*=`
(case-sensitive, line 90). -/
def configPat : List Tok :=
  [L "const", .simple (.plus pySpace),
   .simple (.alt (["CONFIG", "config", "API", "api", "endpoints", "ENDPOINTS",
     "routes", "ROUTES"].map String.data)),
   .simple (.star pySpace), L "="]

/-- The shared configuration context string computed before the loop
(lines 88-102, 121-124): roughly 500 characters after each configuration
declaration, joined by blank lines, behind a fixed banner. -/
def chunkContext (code : List Char) : List Char :=
  let sections := (finditer false configPat code).map
    (fun m => (code.drop m.1).take (min (m.2.1 + 500) code.length - m.1))
  let config_context := List.intercalate "\n\n".data sections
  if config_context ≠ [] then "IMPORTANT CONFIGURATION:\n".data ++ config_context
  else []

/-- The statement/block-closing delimiters tried in order (line 109). -/
def chunkDelims : List (List Char) :=
  ["\n\x7d", "\n\x7d);", "\n  \x7d);", "\n    \x7d);"].map String.data

/-- Python `code.rfind(delim, s, e)`: the largest start offset of an
occurrence of `delim` lying entirely inside `[s, e)`, if any. -/
def rfindIn (code delim : List Char) (s e : Nat) : Option Nat :=
  ((List.range (e + 1)).filter
    (fun i => decide (s ≤ i) && decide (i + delim.length ≤ e) &&
      delim.isPrefixOf (code.drop i))).getLast?

/-- The delimiter-snapping loop of lines 109-113: the first delimiter
found strictly after `s` moves the window end to just past it; otherwise
the raw end stands. -/
def trySnap (code : List Char) (s e : Nat) : List (List Char) → Nat
  | [] => e
  | d :: rest =>
    match rfindIn code d s e with
    | some i => if s < i then i + d.length else trySnap code s e rest
    | none => trySnap code s e rest

/-- One emitted chunk.  The Python function emits
`(chunk, context, start_line)`; the model additionally records the loop's
`start` and `end` offsets, from which `chunk` is sliced
(`text = code[start:stop]`). -/
structure ChunkRec where
  start : Nat
  stop : Nat
  text : List Char
  context : List Char
  start_line : Nat
deriving DecidableEq, Repr

/-- The window-end computation of lines 105-113: the raw end
`min(start + max_size, len(code))`, snapped back to a delimiter when it
does not reach end-of-file. -/
def chunkEnd (code : List Char) (max_size start : Nat) : Nat :=
  let e0 := min (start + max_size) code.length
  if e0 < code.length then trySnap code start e0 chunkDelims else e0

/-- The `while start < len(code)` loop of lines 104-131, fuel-indexed for
structural termination; `simple_chunk_code` supplies `code.length + 1`
units of fuel, which the C5 theorem proves sufficient whenever
`overlap < max_size`. -/
def chunkLoop (code : List Char) (max_size overlap : Nat) (context : List Char) :
    Nat → Nat → List ChunkRec
  | 0, _ => []
  | fuel + 1, start =>
    if start < code.length then
      let e := chunkEnd code max_size start
      let progress := max (max_size / 3) (max_size - overlap)
      { start := start
        stop := e
        text := (code.drop start).take (e - start)
        context := context
        start_line := (code.take start).count '\n' + 1 } ::
        chunkLoop code max_size overlap context fuel (min e (start + progress))
    else []

/-- `simple_chunk_code` (lines 66-132). -/
def simple_chunk_code (code : List Char) (max_size overlap : Nat) : List ChunkRec :=
  chunkLoop code max_size overlap (chunkContext code) (code.length + 1) 0

/-! ### C5: chunking coverage and termination -/

theorem rfindIn_bounds {code delim : List Char} {s e i : Nat}
    (h : rfindIn code delim s e = some i) : s ≤ i ∧ i + delim.length ≤ e := by
  have hmem := List.mem_of_mem_getLast? h
  have := List.mem_filter.mp hmem
  have hp := this.2
  simp only [Bool.and_eq_true, decide_eq_true_eq] at hp
  exact ⟨hp.1.1, hp.1.2⟩

theorem trySnap_bounds (code : List Char) {s e : Nat} (h : s < e) :
    ∀ ds : List (List Char), s < trySnap code s e ds ∧ trySnap code s e ds ≤ e := by
  intro ds
  induction ds with
  | nil => exact ⟨h, le_refl _⟩
  | cons d rest ih =>
    simp only [trySnap]
    cases hf : rfindIn code d s e with
    | none => exact ih
    | some i =>
      dsimp only
      by_cases hsi : s < i
      · rw [if_pos hsi]
        have hb := rfindIn_bounds hf
        omega
      · rw [if_neg hsi]
        exact ih

theorem chunkEnd_bounds (code : List Char) (max_size : Nat) (hms : 1 ≤ max_size)
    {start : Nat} (h : start < code.length) :
    start < chunkEnd code max_size start ∧ chunkEnd code max_size start ≤ code.length := by
  unfold chunkEnd
  by_cases h0 : min (start + max_size) code.length < code.length
  · rw [if_pos h0]
    have hlt : start < min (start + max_size) code.length := lt_min (by omega) h
    have := trySnap_bounds code hlt chunkDelims
    omega
  · rw [if_neg h0]
    omega

theorem chunkLoop_nil_of_ge (code : List Char) (ms ov : Nat) (ctx : List Char) :
    ∀ (fuel start : Nat), ¬start < code.length →
      chunkLoop code ms ov ctx fuel start = [] := by
  intro fuel start h
  cases fuel with
  | zero => rfl
  | succ fuel => simp only [chunkLoop, if_neg h]

/-- Main loop invariant for C5: the produced list is nonempty, begins at
the given start offset, has strictly increasing start offsets, and its
final chunk ends exactly at the end of the source. -/
theorem chunkLoop_spec (code : List Char) (ms ov : Nat) (ctx : List Char)
    (hms : 1 ≤ ms) (hov : ov < ms) :
    ∀ (fuel start : Nat), start < code.length → code.length - start < fuel →
      chunkLoop code ms ov ctx fuel start ≠ [] ∧
      (chunkLoop code ms ov ctx fuel start).head?.map ChunkRec.start = some start ∧
      List.Chain' (· < ·) ((chunkLoop code ms ov ctx fuel start).map ChunkRec.start) ∧
      (chunkLoop code ms ov ctx fuel start).getLast?.map ChunkRec.stop = some code.length := by
  intro fuel
  induction fuel with
  | zero => intro start _ hf; omega
  | succ fuel ih =>
    intro start hs hf
    have hend := chunkEnd_bounds code ms hms hs
    have hprog : 1 ≤ max (ms / 3) (ms - ov) := by omega
    have hstart' : start < min (chunkEnd code ms start) (start + max (ms / 3) (ms - ov)) :=
      lt_min hend.1 (by omega)
    simp only [chunkLoop, if_pos hs]
    by_cases hs' : min (chunkEnd code ms start) (start + max (ms / 3) (ms - ov)) < code.length
    · have hf' : code.length - min (chunkEnd code ms start) (start + max (ms / 3) (ms - ov)) <
          fuel := by omega
      obtain ⟨hne, hhead, hchain, hlast⟩ := ih _ hs' hf'
      cases hrest : chunkLoop code ms ov ctx fuel
          (min (chunkEnd code ms start) (start + max (ms / 3) (ms - ov))) with
      | nil => exact absurd hrest hne
      | cons r0 rest' =>
        rw [hrest] at hhead hchain hlast
        have hr0 : r0.start = min (chunkEnd code ms start) (start + max (ms / 3) (ms - ov)) := by
          simpa using hhead
        refine ⟨by simp, by simp, ?_, ?_⟩
        · simp only [List.map_cons]
          exact List.chain'_cons.mpr ⟨by rw [hr0]; exact hstart', by simpa using hchain⟩
        · rw [List.getLast?_cons_cons]
          exact hlast
    · rw [chunkLoop_nil_of_ge code ms ov ctx fuel _ hs']
      have hstop : chunkEnd code ms start = code.length := by omega
      exact ⟨by simp, by simp, by simp, by simp [hstop]⟩

/-- Fuel irrelevance: any fuel beyond the number of remaining characters
produces the same chunk list — the loop genuinely terminates. -/
theorem chunkLoop_fuel_irrel (code : List Char) (ms ov : Nat) (ctx : List Char)
    (hms : 1 ≤ ms) (hov : ov < ms) :
    ∀ (f1 f2 start : Nat), code.length - start < f1 → code.length - start < f2 →
      chunkLoop code ms ov ctx f1 start = chunkLoop code ms ov ctx f2 start := by
  intro f1
  induction f1 with
  | zero => intro f2 start h1 _; omega
  | succ f1 ih =>
    intro f2 start h1 h2
    cases f2 with
    | zero => omega
    | succ f2 =>
      by_cases hs : start < code.length
      · have hend := chunkEnd_bounds code ms hms hs
        simp only [chunkLoop, if_pos hs]
        congr 1
        exact ih f2 _ (by omega) (by omega)
      · rw [chunkLoop_nil_of_ge code ms ov ctx _ _ hs,
          chunkLoop_nil_of_ge code ms ov ctx _ _ hs]

/-- C5.  For every non-empty source and every `max_size ≥ 1` and
`overlap < max_size`: the chunker emits at least one chunk, the emitted
chunks' start offsets are strictly increasing, the final chunk's end
offset equals the source length, and the fuel-indexed loop is stable
under any sufficient fuel (the loop terminates). -/
theorem simple_chunk_code_spec (code : List Char) (max_size overlap : Nat)
    (hne : code ≠ []) (hms : 1 ≤ max_size) (hov : overlap < max_size) :
    simple_chunk_code code max_size overlap ≠ [] ∧
    List.Pairwise (· < ·) ((simple_chunk_code code max_size overlap).map ChunkRec.start) ∧
    (simple_chunk_code code max_size overlap).getLast?.map ChunkRec.stop =
      some code.length ∧
    ∀ fuel, code.length < fuel →
      chunkLoop code max_size overlap (chunkContext code) fuel 0 =
        simple_chunk_code code max_size overlap := by
  have hlen : 0 < code.length := List.length_pos.mpr hne
  obtain ⟨hne', _, hchain, hlast⟩ :=
    chunkLoop_spec code max_size overlap (chunkContext code) hms hov
      (code.length + 1) 0 hlen (by omega)
  refine ⟨hne', List.chain'_iff_pairwise.mp hchain, hlast, ?_⟩
  intro fuel hf
  exact chunkLoop_fuel_irrel code max_size overlap (chunkContext code) hms hov
    fuel (code.length + 1) 0 (by omega) (by omega)

/-- Witness for C5 at a concrete input: chunking an 8-character source
with `max_size = 4`, `overlap = 1`. -/
theorem simple_chunk_code_spec_witness :
    ("abcd\nefg".data ≠ [] ∧ 1 ≤ 4 ∧ 1 < 4) ∧
    simple_chunk_code "abcd\nefg".data 4 1 ≠ [] ∧
    List.Pairwise (· < ·) ((simple_chunk_code "abcd\nefg".data 4 1).map ChunkRec.start) ∧
    (simple_chunk_code "abcd\nefg".data 4 1).getLast?.map ChunkRec.stop = some 8 :=
  ⟨⟨by decide, by decide, by decide⟩,
   (simple_chunk_code_spec "abcd\nefg".data 4 1 (by decide) (by decide) (by decide)).1,
   (simple_chunk_code_spec "abcd\nefg".data 4 1 (by decide) (by decide) (by decide)).2.1,
   (simple_chunk_code_spec "abcd\nefg".data 4 1 (by decide) (by decide) (by decide)).2.2.1⟩

/-! ### SemanticDetector: `LLMAnalyzer.analyze_endpoints`
(src/jalapi/core/llm_analyzer.py lines 39-116)

The external completion capability (`voidwire_parlai`, an external
dependency, §6 of the spec) is modelled as an oracle mapping each chunk to
either an error raised before any record is processed (transport failure,
or a response without a usable `endpoints` list) or the parsed list of
response entries.  Each entry is a `RespRec`: `notDict` models an entry
failing the `isinstance(ep, dict)` test of line 73 (skipped by
`continue`); `rec` models a dict whose fields are well-typed, possibly
missing (`dict.get` semantics); `raises` models a dict whose per-record
processing raises — e.g. `"auth": null` makes `ep.get("auth", \x7b\x7d)`
return `None` and line 83 raise `AttributeError`, and a non-integer
`"line_number"` makes the comparison of line 90 raise `TypeError`.
Because `all_endpoints.append` (line 109) runs inside the per-chunk `try`
record by record, such an error keeps the endpoints already appended from
the same chunk's earlier records and drops only the rest. -/

/-- The optional `auth` sub-record of a response record. -/
structure AuthRec where
  required : Option Bool := none
  type : Option String := none
  location : Option String := none
deriving DecidableEq, Repr

/-- One well-typed endpoint record of the structured response; every
field is optional (`dict.get` semantics). -/
structure EpRecord where
  path : Option String := none
  method : Option String := none
  auth : Option AuthRec := none
  confidence : Option ℚ := none
  evidence : Option String := none
  usage_context : Option String := none
  line_number : Option Int := none
deriving DecidableEq, Repr

/-- One entry of the response's `endpoints` list: a non-dict entry, a
well-typed dict, or a dict whose processing raises (with the exception's
message). -/
inductive RespRec where
  | notDict : RespRec
  | record : EpRecord → RespRec
  | raises : String → RespRec
deriving DecidableEq, Repr

/-- The rational 4/5 (the default confidence 0.8) as a normalized
literal. -/
def rat08 : ℚ := Rat.mk' 4 5 (by decide) (by norm_num)

/-- The rational 1/10 (the evidence boost 0.1) as a normalized literal. -/
def rat01 : ℚ := Rat.mk' 1 10 (by decide) (by norm_num)

/-- Python truthiness of `dict.get(key)` for a string field: present and
non-empty. -/
def truthyS (o : Option String) : Bool := o.getD "" ≠ ""

/-- Processing of one well-typed record (lines 73-105): skip it when
`path` is missing; default confidence 0.8 with a +0.1 boost (capped at 1)
when both `evidence` and `usage_context` are truthy; method defaults to
`UNKNOWN`; a positive relative line number is re-anchored to the chunk's
start line. -/
def processRecord (start_line : Nat) (ep : EpRecord) : Option Endpoint :=
  match ep.path with
  | none => none
  | some p =>
    let base0 := ep.confidence.getD rat08
    let base_confidence :=
      if truthyS ep.evidence && truthyS ep.usage_context then min 1 (base0 + rat01)
      else base0
    let auth_info : AuthInfo :=
      { required := ((ep.auth.getD {}).required).getD false
        type := (ep.auth.getD {}).type
        location := (ep.auth.getD {}).location }
    let relative_line : Int := ep.line_number.getD 0
    let absolute_line : Nat :=
      if relative_line > 0 then start_line + relative_line.toNat - 1 else start_line
    some
      { path := p
        method := ep.method.getD "UNKNOWN"
        auth := auth_info
        confidence := base_confidence
        detector := "llm"
        context := some (match ep.usage_context with
          | some u => u
          | none => ep.evidence.getD "")
        line_number := some absolute_line }

/-- The `for ep in response["endpoints"]` loop of lines 72-109 for one
chunk: entries are processed in order; a raising record aborts the rest
of the chunk's list (the exception propagates to the chunk's `except`),
but the endpoints appended from the records before it are kept.  Returns
the appended endpoints together with the raised message, if any. -/
def processChunkRecords (start_line : Nat) : List RespRec → List Endpoint × Option String
  | [] => ([], none)
  | .notDict :: rest => processChunkRecords start_line rest
  | .raises msg :: _ => ([], some msg)
  | .record r :: rest =>
    match processRecord start_line r with
    | none => processChunkRecords start_line rest
    | some e =>
      let tail := processChunkRecords start_line rest
      (e :: tail.1, tail.2)

/-- The per-chunk loop of lines 56-114.  The whole chunk body sits in a
`try/except` whose handler only logs, so a transport/shape error before
any record contributes nothing, a record-level error keeps the chunk's
earlier endpoints, and the loop always moves on to the next chunk.
`all_endpoints` accumulates across chunks exactly as in the source. -/
def llm_process_chunks (oracle : ChunkRec → Except String (List RespRec))
    (chunks : List ChunkRec) : List Endpoint :=
  chunks.foldl
    (fun all_endpoints chunk =>
      match oracle chunk with
      | .error _ => all_endpoints
      | .ok recs => all_endpoints ++ (processChunkRecords chunk.start_line recs).1)
    []

/-- `LLMAnalyzer.analyze_endpoints` (lines 39-116): chunk with the default
`(3000, 1000)` parameters, then run the per-chunk loop. -/
def analyze_endpoints (oracle : ChunkRec → Except String (List RespRec))
    (js : List Char) : List Endpoint :=
  llm_process_chunks oracle (simple_chunk_code js 3000 1000)

/-- The contribution of a single chunk. -/
def chunkContrib (oracle : ChunkRec → Except String (List RespRec))
    (chunk : ChunkRec) : List Endpoint :=
  match oracle chunk with
  | .error _ => []
  | .ok recs => (processChunkRecords chunk.start_line recs).1

theorem llm_foldl_acc (oracle : ChunkRec → Except String (List RespRec)) :
    ∀ (chunks : List ChunkRec) (acc : List Endpoint),
      chunks.foldl
        (fun all_endpoints chunk =>
          match oracle chunk with
          | .error _ => all_endpoints
          | .ok recs => all_endpoints ++ (processChunkRecords chunk.start_line recs).1)
        acc = acc ++ chunks.flatMap (chunkContrib oracle) := by
  intro chunks
  induction chunks with
  | nil => intro acc; simp
  | cons c cs ih =>
    intro acc
    simp only [List.foldl_cons, List.flatMap_cons]
    cases hc : oracle c with
    | error e => simp [ih, chunkContrib, hc]
    | ok recs => simp [ih, chunkContrib, hc]

theorem llm_process_chunks_flatMap
    (oracle : ChunkRec → Except String (List RespRec)) (chunks : List ChunkRec) :
    llm_process_chunks oracle chunks = chunks.flatMap (chunkContrib oracle) := by
  simpa using llm_foldl_acc oracle chunks []

/-- A raising record ends the chunk's record loop: the endpoints of the
error-free prefix before it are kept, everything after it is dropped, and
the raised message is reported. -/
theorem processChunkRecords_raise (start_line : Nat) (msg : String) :
    ∀ (good rest : List RespRec),
      (processChunkRecords start_line good).2 = none →
      processChunkRecords start_line (good ++ .raises msg :: rest) =
        ((processChunkRecords start_line good).1, some msg) := by
  intro good
  induction good with
  | nil => intro rest _; rfl
  | cons g gs ih =>
    intro rest hnone
    cases g with
    | notDict =>
      simp only [List.cons_append, processChunkRecords] at hnone ⊢
      exact ih rest hnone
    | raises m => simp [processChunkRecords] at hnone
    | record r =>
      simp only [List.cons_append, processChunkRecords] at hnone ⊢
      cases hp : processRecord start_line r with
      | none =>
        rw [hp] at hnone
        dsimp only at hnone ⊢
        exact ih rest hnone
      | some e =>
        rw [hp] at hnone
        dsimp only at hnone ⊢
        rw [show gs.append (RespRec.raises msg :: rest) = gs ++ RespRec.raises msg :: rest
          from rfl, ih rest hnone]

/-- Counterexample to C7 as stated.  A chunk whose response holds one good
record and then a record whose processing raises (a non-integer
`line_number`, say) hits the `except` handler — yet the analysis result
still contains the endpoint appended from the good record before the
error: the erroring chunk does NOT contribute zero candidate endpoints,
because `all_endpoints.append` runs record by record inside the `try`. -/
theorem llm_chunk_error_partial_contribution :
    (fun ch => if ch.start = 0 then
        Except.ok [RespRec.record { path := some "/api/first" },
          RespRec.raises "TypeError: unorderable types str and int"]
      else (Except.error "unreachable" : Except String (List RespRec)))
      (⟨0, 1, "a".data, [], 1⟩ : ChunkRec) =
      Except.ok [RespRec.record { path := some "/api/first" },
        RespRec.raises "TypeError: unorderable types str and int"] ∧
    (processChunkRecords 1 [RespRec.record { path := some "/api/first" },
        RespRec.raises "TypeError: unorderable types str and int"]).2 =
      some "TypeError: unorderable types str and int" ∧
    (llm_process_chunks
      (fun ch => if ch.start = 0 then
          Except.ok [RespRec.record { path := some "/api/first" },
            RespRec.raises "TypeError: unorderable types str and int"]
        else Except.error "unreachable")
      [⟨0, 1, "a".data, [], 1⟩]).map Endpoint.path = ["/api/first"] :=
  ⟨rfl, rfl, rfl⟩

/-- C7 (amended).  Any error invoking the external capability or
processing its response for one chunk is caught and never aborts the
analysis: the chunk list decomposes, every other chunk's contribution is
intact, a chunk failing before any record is processed (transport error,
unusable response shape) contributes zero candidate endpoints, and a
chunk failing while processing a later record keeps exactly the
endpoints already appended from the records before the failure. -/
theorem llm_chunk_failure_isolated
    (oracle : ChunkRec → Except String (List RespRec))
    (pre post : List ChunkRec) (bad : ChunkRec) :
    llm_process_chunks oracle (pre ++ bad :: post) =
      llm_process_chunks oracle pre ++ chunkContrib oracle bad ++
        llm_process_chunks oracle post ∧
    (∀ err, oracle bad = .error err → chunkContrib oracle bad = []) ∧
    (∀ (good rest : List RespRec) (msg : String),
      oracle bad = .ok (good ++ .raises msg :: rest) →
      (processChunkRecords bad.start_line good).2 = none →
      chunkContrib oracle bad = (processChunkRecords bad.start_line good).1) := by
  refine ⟨?_, ?_, ?_⟩
  · simp [llm_process_chunks_flatMap]
  · intro err herr
    simp [chunkContrib, herr]
  · intro good rest msg hok hnone
    simp [chunkContrib, hok, processChunkRecords_raise bad.start_line msg good rest hnone]

/-- Concrete oracle for the C7 witness: the chunk starting at offset 0
succeeds with one record; the chunk at offset 1 fails mid-response (one
good record, then a raising one); the chunk at offset 2 fails at
transport level. -/
def wOracle : ChunkRec → Except String (List RespRec) :=
  fun ch =>
    if ch.start = 1 then
      Except.ok ([RespRec.record { path := some "/api/partial" }] ++
        RespRec.raises "AttributeError: NoneType has no attribute get" :: [])
    else if ch.start = 2 then Except.error "transport failure"
    else Except.ok [RespRec.record { path := some "/api/ok" }, RespRec.notDict]

/-- Witness for C7's amended theorem at concrete inputs: three chunks,
the middle one failing mid-response — its good-prefix endpoint survives —
with the decomposition and both failure modes instantiated. -/
theorem llm_chunk_failure_isolated_witness :
    (llm_process_chunks wOracle ([⟨0, 1, "a".data, [], 1⟩] ++ ⟨1, 2, "b".data, [], 1⟩ ::
        [⟨2, 3, "c".data, [], 1⟩]) =
      llm_process_chunks wOracle [⟨0, 1, "a".data, [], 1⟩] ++
        chunkContrib wOracle ⟨1, 2, "b".data, [], 1⟩ ++
        llm_process_chunks wOracle [⟨2, 3, "c".data, [], 1⟩]) ∧
    chunkContrib wOracle ⟨1, 2, "b".data, [], 1⟩ =
      (processChunkRecords 1 [RespRec.record { path := some "/api/partial" }]).1 ∧
    chunkContrib wOracle ⟨2, 3, "c".data, [], 1⟩ = [] :=
  ⟨(llm_chunk_failure_isolated wOracle [⟨0, 1, "a".data, [], 1⟩]
      [⟨2, 3, "c".data, [], 1⟩] ⟨1, 2, "b".data, [], 1⟩).1,
   (llm_chunk_failure_isolated wOracle [⟨0, 1, "a".data, [], 1⟩]
      [⟨2, 3, "c".data, [], 1⟩] ⟨1, 2, "b".data, [], 1⟩).2.2
     [RespRec.record { path := some "/api/partial" }] []
     "AttributeError: NoneType has no attribute get" rfl rfl,
   (llm_chunk_failure_isolated wOracle [⟨1, 2, "b".data, [], 1⟩] []
      ⟨2, 3, "c".data, [], 1⟩).2.1 "transport failure" rfl⟩

end Jalapi
